import Mathlib

set_option maxHeartbeats 1000000
set_option maxRecDepth 10000

namespace KindleScribe

/-- ASCII model of the whitespace class used by the script: the characters
matched by the regex class backslash-s and stripped by the bare strip call. -/
def isPySpace (c : Char) : Bool :=
  c == ' ' || c == '\t' || c == '\n' || c == '\r' || c == '\x0b' || c == '\x0c'

/-- ASCII model of the regex word class: letters, digits and underscore. -/
def isWordChar (c : Char) : Bool :=
  c.isAlphanum || c == '_'

/-- Model of the bare strip call on a string: remove leading and trailing
whitespace. -/
def pyStrip (l : List Char) : List Char :=
  ((l.dropWhile isPySpace).reverse.dropWhile isPySpace).reverse

/-- Length of the match of the page-artifact pattern at the head of the list,
if any: the literal text Page followed by a space, one or more digits, then a
greedy whitespace run that must end with a newline (the pattern backtracks so
that the last character consumed is the final newline inside the run). -/
def pageMatchLen (l : List Char) : Option Nat :=
  if l.take 5 = ['P', 'a', 'g', 'e', ' '] then
    let t := l.drop 5
    let ds := t.takeWhile Char.isDigit
    if ds.isEmpty then none
    else
      let u := t.drop ds.length
      let ws := u.takeWhile isPySpace
      match ws.reverse.findIdx? (fun c => c == '\n') with
      | none => none
      | some k => some (5 + ds.length + (ws.length - k))
  else none

/-- Fuel-indexed scanner for the page-artifact substitution; each step either
deletes one leftmost match (which consumes at least one character) or keeps
one character, so any fuel at least the length of the list is enough. -/
def stripPagesGo : Nat → List Char → List Char
  | 0, l => l
  | _ + 1, [] => []
  | fuel + 1, c :: cs =>
    match pageMatchLen (c :: cs) with
    | some n => stripPagesGo fuel ((c :: cs).drop n)
    | none => c :: stripPagesGo fuel cs

/-- Model of the global substitution that deletes page-number artifacts
before chunking: scan left to right, delete each leftmost match of the
page pattern, and continue after the deleted match. -/
def stripPageNumbers (l : List Char) : List Char :=
  stripPagesGo l.length l

/-- Fuel-indexed scanner for the chunk split; each step consumes at least one
character, so any fuel at least the length of the list is enough. -/
def splitChunksGo : Nat → List Char → List (List Char)
  | 0, l => [l]
  | _ + 1, [] => [[]]
  | fuel + 1, c :: cs =>
    if c == '\n' && cs.headD ' ' == '\n' then
      [] :: splitChunksGo fuel (cs.dropWhile (fun x => x == '\n'))
    else
      (splitChunksGo fuel cs).modifyHead (fun p => c :: p)

/-- Model of splitting on runs of two or more consecutive newline
characters: the chunk boundary rule of the parser. -/
def splitChunks (l : List Char) : List (List Char) :=
  splitChunksGo l.length l

/-- Model of splitting a string on every single newline character. -/
def splitOnNl : List Char → List (List Char)
  | [] => [[]]
  | c :: cs =>
    if c == '\n' then [] :: splitOnNl cs
    else (splitOnNl cs).modifyHead (fun p => c :: p)

/-- Model of the substitution replacing each run of two or more spaces by a
single space. -/
def collapseSpaces : List Char → List Char
  | [] => []
  | c :: cs =>
    if c == ' ' && cs.headD 'x' == ' ' then collapseSpaces cs
    else c :: collapseSpaces cs

/-- Model of the substitution replacing each run of three or more newlines by
exactly two newlines. -/
def collapseNewlineRuns : List Char → List Char
  | [] => []
  | c :: cs =>
    if c == '\n' && cs.take 2 = ['\n', '\n'] then collapseNewlineRuns cs
    else c :: collapseNewlineRuns cs

/-- Model of the line-final punctuation test: the line ends with one of the
six terminal punctuation characters. -/
def endsWithPunct (l : List Char) : Bool :=
  match l.getLast? with
  | some c => ['.', '!', '?', ':', ';', ','].contains c
  | none => false

/-- Model of the body-cleanup step of the parser: split into lines, strip each
line, keep blank lines as empty pieces, append a single space to a non-blank
line that neither ends in terminal punctuation nor is the last line, join the
pieces with no separator, collapse space runs, collapse newline runs, and
strip the result. -/
def cleanupContent (content : List Char) : List Char :=
  let lines := splitOnNl content
  let n := lines.length
  let cleaned := lines.enum.map (fun p =>
    let l := pyStrip p.2
    if l.isEmpty then []
    else if !endsWithPunct l && p.1 + 1 != n then l ++ [' ']
    else l)
  pyStrip (collapseNewlineRuns (collapseSpaces cleaned.flatten))

/-- Model of the leading title-directive regex of the parser, applied to a
chunk: the literal text Title and a colon (case-insensitive), a greedy
whitespace run that may cross line breaks, then a lazy non-empty capture of
non-newline characters ending at a newline or at the end of the chunk.
Returns the capture and the remainder of the chunk after the whole match. -/
def titleMatch (chunk : List Char) : Option (List Char × List Char) :=
  if (chunk.take 6).map Char.toLower = ['t', 'i', 't', 'l', 'e', ':'] then
    if ((chunk.drop 6).dropWhile isPySpace).isEmpty then
      match (chunk.drop 6).reverse.dropWhile (fun c => c == '\n') with
      | [] => none
      | c :: _ =>
        some ([c], ((chunk.drop 6).reverse.takeWhile (fun c => c == '\n')).drop 1)
    else
      some (((chunk.drop 6).dropWhile isPySpace).takeWhile (fun c => c != '\n'),
        (((chunk.drop 6).dropWhile isPySpace).drop
          (((chunk.drop 6).dropWhile isPySpace).takeWhile (fun c => c != '\n')).length).drop 1)
  else none

/-- Default title rule of the parser: the first line of the content,
truncated to its first fifty characters when longer. -/
def defaultTitle (content : List Char) : List Char :=
  if 50 < (content.takeWhile (fun c => c != '\n')).length then
    (content.takeWhile (fun c => c != '\n')).take 50
  else content.takeWhile (fun c => c != '\n')

/-- One parsed note record as built by the parser: title, cleaned body,
propagated source label, and one-based position among all split chunks. -/
structure Note where
  title : List Char
  content : List Char
  source : List Char
  index : Nat
deriving DecidableEq, Repr

/-- Model of one iteration of the chunk loop of the parser: strip the chunk,
discard it when its length is at most ten, otherwise extract an optional
title directive, infer a default title when none was captured or the capture
stripped to nothing, clean the remaining content, and emit a record whose
position is one more than the zero-based chunk index. -/
def processChunk (source : List Char) (i : Nat) (rawChunk : List Char) :
    Option Note :=
  if 10 < (pyStrip rawChunk).length then
    match titleMatch (pyStrip rawChunk) with
    | some (cap, rest) =>
      if (pyStrip cap).isEmpty then
        some ⟨defaultTitle (pyStrip rest), cleanupContent (pyStrip rest), source, i + 1⟩
      else
        some ⟨pyStrip cap, cleanupContent (pyStrip rest), source, i + 1⟩
    | none =>
      some ⟨defaultTitle (pyStrip rawChunk), cleanupContent (pyStrip rawChunk),
        source, i + 1⟩
  else none

/-- Model of the parser entry point: strip page artifacts, split into chunks
at runs of two or more newlines, and run the chunk loop over the enumerated
chunks. -/
def parse_highlights_and_notes (text source : List Char) : List Note :=
  ((splitChunks (stripPageNumbers text)).enum).filterMap
    (fun p => processChunk source p.1 p.2)

/-- Model of the page-by-page accumulation used by both extraction passes of
the recovery engine: pages whose stripped text is non-empty are concatenated,
each followed by one newline. -/
def accumPages (pages : List (List Char)) : List Char :=
  pages.foldl (fun acc p => if (pyStrip p).isEmpty then acc else acc ++ p ++ ['\n']) []

/-- Model of the two-stage text recovery of the script. The per-page results
of the direct text-extraction pass and of the recognition pass are supplied
as inputs, standing for the external extraction libraries. Returns the
recovered text together with a flag recording whether the recognition pass
was attempted. Recognition is attempted exactly when the stripped direct text
has fewer than one hundred characters, and its result replaces the direct
text only when it is strictly longer. -/
def extract_text_from_pdf (directPages ocrPages : List (List Char)) :
    List Char × Bool :=
  if (pyStrip (accumPages directPages)).length < 100 then
    (if (accumPages directPages).length < (accumPages ocrPages).length then
       accumPages ocrPages
     else accumPages directPages, true)
  else (accumPages directPages, false)

/-- Model of the substitution replacing each maximal whitespace run by a
single space, used while sanitizing a title into a file name. -/
def collapseWsRuns : List Char → List Char
  | [] => []
  | c :: cs =>
    if isPySpace c then
      if isPySpace (cs.headD 'x') then collapseWsRuns cs
      else ' ' :: collapseWsRuns cs
    else c :: collapseWsRuns cs

/-- Model of the title sanitization of the persistence step: delete every
character that is not a word character, whitespace or a hyphen, then collapse
whitespace runs to single spaces and strip. -/
def sanitizeTitle (t : List Char) : List Char :=
  pyStrip (collapseWsRuns (t.filter (fun c => isWordChar c || isPySpace c || c == '-')))

/-- Fuel-indexed decimal rendering; fuel bounds the number of digit
positions above the last one, so any fuel with ten to the power fuel plus one
exceeding the number is enough. -/
def natDecGo : Nat → Nat → List Char
  | 0, n => [Nat.digitChar n]
  | fuel + 1, n =>
    if n < 10 then [Nat.digitChar n]
    else natDecGo fuel (n / 10) ++ [Nat.digitChar (n % 10)]

/-- Decimal rendering of a natural number, as produced by string formatting
of the collision counter in the persistence step. -/
def natDec (n : Nat) : List Char :=
  natDecGo n n

/-- Decimal value of a digit string, used to show that the decimal rendering
is injective. -/
def decVal (l : List Char) : Nat :=
  l.foldl (fun a c => 10 * a + (c.toNat - 48)) 0

/-- The candidate file name tried at collision-counter value k: the base name
alone for k equal to zero, otherwise the base name, a space and the decimal
counter, always followed by the markdown extension. -/
def noteFilename (base : List Char) (k : Nat) : List Char :=
  if k = 0 then base ++ ['.', 'm', 'd']
  else base ++ ' ' :: (natDec k ++ ['.', 'm', 'd'])

/-- The base name used by the persistence step: the sanitized title, or a
label containing the one-based record position when the title sanitizes to
nothing. -/
def noteBase (note : Note) : List Char :=
  let t := sanitizeTitle note.title
  if t.isEmpty then ['N', 'o', 't', 'e', ' '] ++ natDec note.index else t

/-- Model of the collision loop of the persistence step: try candidate names
with increasing counters until one is not among the existing names. One unit
of fuel is spent per candidate tried; since the candidates are pairwise
distinct, fuel exceeding the number of existing names is enough. -/
def chooseNameGo (existing : List (List Char)) (base : List Char) :
    Nat → Nat → List Char
  | 0, k => noteFilename base k
  | fuel + 1, k =>
    if noteFilename base k ∈ existing then chooseNameGo existing base fuel (k + 1)
    else noteFilename base k

/-- Model of the persistence step of the script, with the file system
abstracted as the list of file names already present at the destination:
returns the name under which the record is written. -/
def create_obsidian_note (existing : List (List Char)) (note : Note) : List Char :=
  chooseNameGo existing (noteBase note) (existing.length + 1) 0

/-- Sanitization as worded by one reading of the specification, for
comparison with the one implemented by the script: remove the non-word
characters, keeping only word characters and the whitespace that is then
collapsed. -/
def sanitizeTitleClaim (t : List Char) : List Char :=
  pyStrip (collapseWsRuns (t.filter (fun c => isWordChar c || isPySpace c)))

/-- One parsed record of the folder-aware revision of the parser: as a plain
record but with an optional routing folder. -/
structure FolderNote where
  title : List Char
  content : List Char
  folder : Option (List Char)
  source : List Char
  index : Nat
deriving DecidableEq, Repr

/-- Case-insensitive equality of two character lists. -/
def lowerEq (a b : List Char) : Bool :=
  a.map Char.toLower == b.map Char.toLower

/-- Modelled from the spec: the case-insensitive lookup of a captured folder
word in the fixed shorthand table; the word itself is the destination when it
is not in the table. The table and its contents are in the folder-aware
revision of the script, which is not in the sources given here, so the table
is passed as a parameter. -/
def resolveFolder (table : List (List Char × List Char)) (w : List Char) : List Char :=
  match table.find? (fun p => lowerEq p.1 w) with
  | some p => p.2
  | none => w

/-- Modelled from the spec: the folder-by-tag directive of the folder-aware
revision, which is not in the sources given here. A line consisting solely of
a hash mark followed by a word token, with optional whitespace around the
hash mark, at the very start of the chunk; returns the captured word and the
chunk with the directive line removed. -/
def matchFolderTag (chunk : List Char) : Option (List Char × List Char) :=
  match (chunk.takeWhile (fun c => c != '\n')).dropWhile isPySpace with
  | '#' :: l2 =>
    if ((l2.dropWhile isPySpace).takeWhile isWordChar).isEmpty then none
    else if (((l2.dropWhile isPySpace).drop
        ((l2.dropWhile isPySpace).takeWhile isWordChar).length).dropWhile
          isPySpace).isEmpty then
      some ((l2.dropWhile isPySpace).takeWhile isWordChar,
        (chunk.drop (chunk.takeWhile (fun c => c != '\n')).length).drop 1)
    else none
  | _ => none

/-- Modelled from the spec: the folder-by-line directive of the folder-aware
revision, which is not in the sources given here. A leading line of the form
Folder colon value, case-insensitive; an empty or whitespace-only value is
treated as no directive. Returns the stripped value and the chunk with the
directive line removed. -/
def matchFolderLine (chunk : List Char) : Option (List Char × List Char) :=
  if ((chunk.takeWhile (fun c => c != '\n')).take 7).map Char.toLower =
      ['f', 'o', 'l', 'd', 'e', 'r', ':'] then
    if (pyStrip ((chunk.takeWhile (fun c => c != '\n')).drop 7)).isEmpty then none
    else some (pyStrip ((chunk.takeWhile (fun c => c != '\n')).drop 7),
      (chunk.drop (chunk.takeWhile (fun c => c != '\n')).length).drop 1)
  else none

/-- Modelled from the spec: the title-by-line directive of the folder-aware
revision, which is not in the sources given here. A leading line of the form
Title colon value, case-insensitive; an empty or whitespace-only value is
treated as no directive. Returns the stripped value and the chunk with the
directive line removed. -/
def matchTitleLine (chunk : List Char) : Option (List Char × List Char) :=
  if ((chunk.takeWhile (fun c => c != '\n')).take 6).map Char.toLower =
      ['t', 'i', 't', 'l', 'e', ':'] then
    if (pyStrip ((chunk.takeWhile (fun c => c != '\n')).drop 6)).isEmpty then none
    else some (pyStrip ((chunk.takeWhile (fun c => c != '\n')).drop 6),
      (chunk.drop (chunk.takeWhile (fun c => c != '\n')).length).drop 1)
  else none

/-- Modelled from the spec: the two folder passes of the folder-aware
revision of the parser, which is not in the sources given here, run in order:
the folder-by-tag pass on the chunk, then the folder-by-line pass on what
remains; each consumed directive line is stripped. Returns the resolved
folder, if any, and the remaining content. -/
def folderOf (table : List (List Char × List Char)) (chunk : List Char) :
    Option (List Char) × List Char :=
  match matchFolderTag chunk with
  | some (w, rest) =>
    match matchFolderLine (pyStrip rest) with
    | some (v, rest2) => (some (resolveFolder table v), pyStrip rest2)
    | none => (some (resolveFolder table w), pyStrip rest)
  | none =>
    match matchFolderLine chunk with
    | some (v, rest2) => (some (resolveFolder table v), pyStrip rest2)
    | none => (none, chunk)

/-- Modelled from the spec: the title-by-line pass of the folder-aware
revision, which is not in the sources given here: an explicit title and the
content with the directive line stripped, or no title and the content
unchanged. -/
def titleOf (chunk : List Char) : Option (List Char) × List Char :=
  match matchTitleLine chunk with
  | some (t, rest) => (some t, pyStrip rest)
  | none => (none, chunk)

/-- Modelled from the spec: one iteration of the chunk loop of the
folder-aware revision of the parser, which is not in the sources given here.
After the length filter, the directive passes run in the fixed order
folder-by-tag, folder-by-line, title-by-line, each stripping its matched line
from the content; the remaining content is cleaned exactly as in the revision
present in the sources. -/
def processChunkSpec (table : List (List Char × List Char)) (source : List Char)
    (i : Nat) (rawChunk : List Char) : Option FolderNote :=
  if 10 < (pyStrip rawChunk).length then
    some ⟨(match (titleOf (folderOf table (pyStrip rawChunk)).2).1 with
           | some t => t
           | none => defaultTitle (titleOf (folderOf table (pyStrip rawChunk)).2).2),
      cleanupContent (titleOf (folderOf table (pyStrip rawChunk)).2).2,
      (folderOf table (pyStrip rawChunk)).1, source, i + 1⟩
  else none

/-- Modelled from the spec: the entry point of the folder-aware revision of
the parser, which is not in the sources given here; identical to the revision
present in the sources except for the folder routing of each chunk. -/
def parseWithFolders (table : List (List Char × List Char))
    (text source : List Char) : List FolderNote :=
  ((splitChunks (stripPageNumbers text)).enum).filterMap
    (fun p => processChunkSpec table source p.1 p.2)

theorem splitOnNl_ne_nil (l : List Char) : splitOnNl l ≠ [] := by
  induction l with
  | nil => simp [splitOnNl]
  | cons c cs ih =>
    unfold splitOnNl
    split
    · simp
    · cases h : splitOnNl cs with
      | nil => exact absurd h ih
      | cons p ps => simp [List.modifyHead]

theorem splitOnNl_no_nl {l : List Char} {p : List Char} (hp : p ∈ splitOnNl l) :
    '\n' ∉ p := by
  induction l generalizing p with
  | nil =>
    simp [splitOnNl] at hp
    simp [hp]
  | cons c cs ih =>
    unfold splitOnNl at hp
    split at hp
    · rw [List.mem_cons] at hp
      rcases hp with h | h
      · simp [h]
      · exact ih h
    · rename_i hc
      cases h : splitOnNl cs with
      | nil => exact absurd h (splitOnNl_ne_nil cs)
      | cons q qs =>
        rw [h, List.modifyHead] at hp
        rw [List.mem_cons] at hp
        rcases hp with hp | hp
        · subst hp
          intro hmem
          rw [List.mem_cons] at hmem
          rcases hmem with hmem | hmem
          · simp [← hmem] at hc
          · exact ih (h ▸ List.mem_cons_self q qs) hmem
        · exact ih (h ▸ List.mem_cons_of_mem q hp)

theorem mem_collapseSpaces {c : Char} {l : List Char} (h : c ∈ collapseSpaces l) :
    c ∈ l := by
  induction l with
  | nil => simp [collapseSpaces] at h
  | cons a as ih =>
    unfold collapseSpaces at h
    split at h
    · exact List.mem_cons_of_mem a (ih h)
    · rw [List.mem_cons] at h
      rcases h with h | h
      · simp [h]
      · exact List.mem_cons_of_mem a (ih h)

theorem mem_collapseNewlineRuns {c : Char} {l : List Char}
    (h : c ∈ collapseNewlineRuns l) : c ∈ l := by
  induction l with
  | nil => simp [collapseNewlineRuns] at h
  | cons a as ih =>
    unfold collapseNewlineRuns at h
    split at h
    · exact List.mem_cons_of_mem a (ih h)
    · rw [List.mem_cons] at h
      rcases h with h | h
      · simp [h]
      · exact List.mem_cons_of_mem a (ih h)

theorem mem_pyStrip {c : Char} {l : List Char} (h : c ∈ pyStrip l) : c ∈ l := by
  unfold pyStrip at h
  rw [List.mem_reverse] at h
  have h1 := List.dropWhile_sublist (l := (l.dropWhile isPySpace).reverse) (p := isPySpace)
  have h2 := h1.mem h
  rw [List.mem_reverse] at h2
  exact (List.dropWhile_sublist (l := l) (p := isPySpace)).mem h2

theorem newline_not_mem_cleanupContent (content : List Char) :
    '\n' ∉ cleanupContent content := by
  intro hmem
  unfold cleanupContent at hmem
  have h1 := mem_pyStrip hmem
  have h2 := mem_collapseNewlineRuns h1
  have h3 := mem_collapseSpaces h2
  rw [List.mem_flatten] at h3
  obtain ⟨piece, hpiece, hcp⟩ := h3
  rw [List.mem_map] at hpiece
  obtain ⟨pair, hpair, hpeq⟩ := hpiece
  have hline : pair.2 ∈ splitOnNl content := by
    have := List.snd_mem_of_mem_enum hpair
    exact this
  have hnonl := splitOnNl_no_nl hline
  subst hpeq
  dsimp only at hcp
  split at hcp
  · simp at hcp
  · split at hcp
    · rcases List.mem_append.mp hcp with hc | hc
      · exact hnonl (mem_pyStrip hc)
      · simp at hc
    · exact hnonl (mem_pyStrip hcp)

theorem processChunk_inv {s : List Char} {i : Nat} {c : List Char} {r : Note}
    (h : processChunk s i c = some r) :
    r.index = i + 1 ∧ r.source = s ∧ ∃ x, r.content = cleanupContent x := by
  unfold processChunk at h
  split at h
  · split at h
    · split at h
      · simp only [Option.some.injEq] at h
        subst h
        exact ⟨rfl, rfl, _, rfl⟩
      · simp only [Option.some.injEq] at h
        subst h
        exact ⟨rfl, rfl, _, rfl⟩
    · simp only [Option.some.injEq] at h
      subst h
      exact ⟨rfl, rfl, _, rfl⟩
  · exact absurd h (by simp)

theorem processChunk_isSome (s : List Char) (i : Nat) (c : List Char) :
    (processChunk s i c).isSome = true ↔ 10 < (pyStrip c).length := by
  unfold processChunk
  split
  · rename_i hlen
    constructor
    · intro _
      exact hlen
    · intro _
      split
      · split <;> simp
      · simp
  · rename_i hlen
    constructor
    · intro hs
      simp at hs
    · intro hlt
      exact absurd hlt hlen

theorem processChunk_none_of_short {s : List Char} {i : Nat} {c : List Char}
    (h : (pyStrip c).length ≤ 10) : processChunk s i c = none := by
  cases hp : processChunk s i c with
  | none => rfl
  | some r =>
    have := (processChunk_isSome s i c).mp (by rw [hp]; rfl)
    omega

theorem filterMap_enumFrom_length (s : List Char) :
    ∀ (l : List (List Char)) (n : Nat),
      ((List.enumFrom n l).filterMap (fun p => processChunk s p.1 p.2)).length =
        (l.filter (fun c => decide (10 < (pyStrip c).length))).length := by
  intro l
  induction l with
  | nil => intro n; rfl
  | cons a as ih =>
    intro n
    rw [List.enumFrom_cons, List.filterMap_cons, List.filter_cons]
    cases hp : processChunk s n a with
    | none =>
      have hshort : ¬ 10 < (pyStrip a).length := by
        intro hlt
        have := (processChunk_isSome s n a).mpr hlt
        rw [hp] at this
        simp at this
      rw [decide_eq_false hshort]
      simp only [Bool.false_eq_true, if_false]
      exact ih (n + 1)
    | some r =>
      have hlong : 10 < (pyStrip a).length := by
        have := (processChunk_isSome s n a).mp (by rw [hp]; rfl)
        exact this
      rw [decide_eq_true hlong]
      simp only [if_true, List.length_cons]
      rw [ih (n + 1)]

/-- Claim C5: recovery attempts image-based recognition if and only if the
trimmed direct-extraction text is shorter than one hundred characters, the
returned text is never shorter than the direct candidate, nor than the
recognition candidate when recognition was attempted; and on a five-hundred
character direct result with a fifty character recognition result it returns
the direct text without attempting recognition. -/
theorem C5_recovery_threshold_and_monotonicity :
    (∀ directPages ocrPages : List (List Char),
      ((extract_text_from_pdf directPages ocrPages).2 = true ↔
        (pyStrip (accumPages directPages)).length < 100)
      ∧ (accumPages directPages).length ≤
          (extract_text_from_pdf directPages ocrPages).1.length
      ∧ ((extract_text_from_pdf directPages ocrPages).2 = true →
          (accumPages ocrPages).length ≤
            (extract_text_from_pdf directPages ocrPages).1.length))
    ∧ extract_text_from_pdf [List.replicate 500 'a'] [List.replicate 50 'b'] =
        (List.replicate 500 'a' ++ ['\n'], false) := by
  refine ⟨?_, by decide⟩
  intro dp op
  unfold extract_text_from_pdf
  split
  · rename_i hcond
    refine ⟨by simpa using hcond, ?_, ?_⟩
    · dsimp only
      split
      · rename_i hlt
        exact Nat.le_of_lt hlt
      · exact Nat.le_refl _
    · intro _
      dsimp only
      split
      · exact Nat.le_refl _
      · rename_i hge
        omega
  · rename_i hcond
    refine ⟨by simpa using hcond, Nat.le_refl _, ?_⟩
    intro hfalse
    simp at hfalse

/-- Claim C5, witness: with a twenty-character direct text the recognition
pass is attempted and the recovered text is at least as long as the
recognition candidate. -/
theorem C5_witness :
    (accumPages [List.replicate 50 'b']).length ≤
      (extract_text_from_pdf [List.replicate 20 'a'] [List.replicate 50 'b']).1.length :=
  (C5_recovery_threshold_and_monotonicity.1 [List.replicate 20 'a']
    [List.replicate 50 'b']).2.2 (by decide)

/-- Claim C7: a chunk whose trimmed length is at most ten yields no record,
one with trimmed length at least eleven yields exactly one record, the count
of emitted records equals the count of chunks passing the strict filter, the
eleven-character chunk is kept and the ten-character chunk is dropped. -/
theorem C7_minimum_length_filter :
    (∀ (s : List Char) (i : Nat) (c : List Char),
        ((pyStrip c).length ≤ 10 → processChunk s i c = none)
        ∧ (10 < (pyStrip c).length → (processChunk s i c).isSome = true))
    ∧ (∀ text source : List Char,
        (parse_highlights_and_notes text source).length =
          ((splitChunks (stripPageNumbers text)).filter
            (fun c => decide (10 < (pyStrip c).length))).length)
    ∧ parse_highlights_and_notes "Hello there".data "B".data =
        [⟨"Hello there".data, "Hello there".data, "B".data, 1⟩]
    ∧ parse_highlights_and_notes "Hello ther".data "B".data = [] := by
  refine ⟨?_, ?_, by decide, by decide⟩
  · intro s i c
    exact ⟨processChunk_none_of_short, fun h => (processChunk_isSome s i c).mpr h⟩
  · intro text source
    unfold parse_highlights_and_notes
    have h := filterMap_enumFrom_length source (splitChunks (stripPageNumbers text)) 0
    unfold List.enum
    exact h

/-- Claim C7, witness: the ten-character chunk is discarded by the filter. -/
theorem C7_witness : processChunk "B".data 0 "Hello ther".data = none :=
  (C7_minimum_length_filter.1 "B".data 0 "Hello ther".data).1 (by decide)

/-- Claim C10: every emitted body is a single line: it contains no newline
character, because the cleanup joins all stripped lines with at most single
spaces between them. -/
theorem C10_single_line_bodies :
    ∀ (text source : List Char) (r : Note),
      r ∈ parse_highlights_and_notes text source → '\n' ∉ r.content := by
  intro text source r hr
  unfold parse_highlights_and_notes at hr
  rw [List.mem_filterMap] at hr
  obtain ⟨p, _, hp⟩ := hr
  obtain ⟨_, _, x, hx⟩ := processChunk_inv hp
  rw [hx]
  exact newline_not_mem_cleanupContent x

/-- Claim C10, witness: the record parsed from a two-line chunk has a body
with no newline character, the two lines having been joined by a space. -/
theorem C10_witness :
    '\n' ∉ (⟨"Hello".data, "Hello world test".data, "B".data, 1⟩ : Note).content :=
  C10_single_line_bodies "Hello\nworld test".data "B".data _ (by decide)

/-- Claim C8: every emitted record's ordinal is one plus the zero-based index
of its chunk among all chunks of the blank-line split, including chunks later
discarded by the minimum-length filter, and every ordinal is at least one. -/
theorem C8_ordinal_from_prefilter_index :
    (∀ (text source : List Char) (r : Note),
        r ∈ parse_highlights_and_notes text source →
          1 ≤ r.index ∧
          ∃ i c, (splitChunks (stripPageNumbers text))[i]? = some c ∧
            processChunk source i c = some r ∧ r.index = i + 1)
    ∧ parse_highlights_and_notes "tiny\n\nThis chunk is long.".data "B".data =
        [⟨"This chunk is long.".data, "This chunk is long.".data, "B".data, 2⟩] := by
  refine ⟨?_, by decide⟩
  intro text source r hr
  unfold parse_highlights_and_notes at hr
  rw [List.mem_filterMap] at hr
  obtain ⟨⟨i, c⟩, hmem, hp⟩ := hr
  have hidx := (processChunk_inv hp).1
  unfold List.enum at hmem
  obtain ⟨-, hlt, hx⟩ := List.mem_enumFrom hmem
  have hlt' : i < (splitChunks (stripPageNumbers text)).length := by omega
  refine ⟨by omega, i, c, ?_, hp, hidx⟩
  simp only [Nat.sub_zero] at hx
  rw [List.getElem?_eq_getElem hlt', hx]

/-- Claim C8, witness: in a document whose first chunk is discarded as too
short, the surviving record carries ordinal two, matching its pre-filter
chunk index. -/
theorem C8_witness :
    1 ≤ (⟨"This chunk is long.".data, "This chunk is long.".data, "B".data, 2⟩ : Note).index ∧
    ∃ i c,
      (splitChunks (stripPageNumbers "tiny\n\nThis chunk is long.".data))[i]? = some c ∧
      processChunk "B".data i c =
        some ⟨"This chunk is long.".data, "This chunk is long.".data, "B".data, 2⟩ ∧
      (⟨"This chunk is long.".data, "This chunk is long.".data, "B".data, 2⟩ : Note).index = i + 1 :=
  C8_ordinal_from_prefilter_index.1 "tiny\n\nThis chunk is long.".data "B".data _ (by decide)

theorem takeWhile_all_append {p : Char → Bool} {v : List Char} {x : Char}
    (hv : ∀ c ∈ v, p c = true) (hx : p x = false) (w : List Char) :
    (v ++ x :: w).takeWhile p = v := by
  induction v with
  | nil => simp [List.takeWhile_cons, hx]
  | cons a as ih =>
    rw [List.cons_append, List.takeWhile_cons, hv a (by simp)]
    rw [ih (fun c hc => hv c (List.mem_cons_of_mem a hc))]
    simp

theorem dropWhile_all_append {p : Char → Bool} {w : List Char} {x : Char}
    (hw : ∀ c ∈ w, p c = true) (hx : p x = false) (y : List Char) :
    (w ++ x :: y).dropWhile p = x :: y := by
  induction w with
  | nil => simp [List.dropWhile_cons, hx]
  | cons a as ih =>
    rw [List.cons_append, List.dropWhile_cons, hw a (by simp)]
    simp only [if_true]
    exact ih (fun c hc => hw c (List.mem_cons_of_mem a hc))

theorem dropWhile_append_singleton_ne_nil {p : Char → Bool} {x : Char}
    (hx : p x = false) (l : List Char) : (l ++ [x]).dropWhile p ≠ [] := by
  induction l with
  | nil => simp [List.dropWhile_cons, hx]
  | cons a as ih =>
    rw [List.cons_append, List.dropWhile_cons]
    split
    · exact ih
    · simp

theorem pyStrip_cons_space {c : Char} (hc : isPySpace c = true) (l : List Char) :
    pyStrip (c :: l) = pyStrip l := by
  unfold pyStrip
  rw [List.dropWhile_cons, hc]
  simp only [if_true]

theorem pyStrip_cons_ne_nil {c : Char} (hc : isPySpace c = false) (l : List Char) :
    pyStrip (c :: l) ≠ [] := by
  unfold pyStrip
  rw [List.dropWhile_cons, hc]
  simp only [Bool.false_eq_true, if_false]
  intro hcontra
  rw [List.reverse_eq_nil_iff] at hcontra
  have hrev : (c :: l).reverse = l.reverse ++ [c] := by simp
  rw [hrev] at hcontra
  exact dropWhile_append_singleton_ne_nil hc l.reverse hcontra

theorem take_lit6 (X : List Char) :
    ((['T', 'i', 't', 'l', 'e', ':'] : List Char) ++ X).take 6 =
      ['T', 'i', 't', 'l', 'e', ':'] := by
  simp

theorem drop_lit6 (X : List Char) :
    ((['T', 'i', 't', 'l', 'e', ':'] : List Char) ++ X).drop 6 = X := by
  simp

theorem titleMatch_ws {w : List Char} (hw : ∀ c ∈ w, isPySpace c = true)
    {c0 : Char} (hc0 : isPySpace c0 = false) {v' : List Char}
    (hv : '\n' ∉ c0 :: v') (rest : List Char) :
    titleMatch (['T', 'i', 't', 'l', 'e', ':'] ++ (w ++ (c0 :: v') ++ '\n' :: rest)) =
      some (c0 :: v', rest) := by
  have hassoc : w ++ (c0 :: v') ++ '\n' :: rest = w ++ c0 :: (v' ++ '\n' :: rest) := by
    simp
  unfold titleMatch
  rw [take_lit6, drop_lit6, hassoc]
  rw [dropWhile_all_append hw hc0]
  have hvnl : ∀ c ∈ c0 :: v', (c != '\n') = true := by
    intro c hc
    simp only [bne_iff_ne, ne_eq]
    intro heq
    exact hv (heq ▸ hc)
  have hcap : (c0 :: (v' ++ '\n' :: rest)).takeWhile (fun c => c != '\n') = c0 :: v' := by
    have h := takeWhile_all_append (p := fun c => c != '\n') (x := '\n') hvnl (by simp) rest
    simpa using h
  rw [if_pos (by decide)]
  rw [if_neg (by simp)]
  rw [hcap]
  have hdrop : (c0 :: (v' ++ '\n' :: rest)).drop (c0 :: v').length = '\n' :: rest := by
    have : c0 :: (v' ++ '\n' :: rest) = (c0 :: v') ++ '\n' :: rest := by simp
    rw [this, List.drop_left]
  rw [hdrop]
  rfl

theorem processChunk_of_titleMatch {raw cap rest : List Char} (s : List Char) (i : Nat)
    (hstrip : pyStrip raw = raw) (hlen : 10 < raw.length)
    (hm : titleMatch raw = some (cap, rest)) (hcap : pyStrip cap ≠ []) :
    processChunk s i raw =
      some ⟨pyStrip cap, cleanupContent (pyStrip rest), s, i + 1⟩ := by
  unfold processChunk
  rw [hstrip, if_pos hlen, hm]
  dsimp only
  rw [if_neg (by simpa [List.isEmpty_iff] using hcap)]

theorem processChunk_of_no_title {raw : List Char} (s : List Char) (i : Nat)
    (hstrip : pyStrip raw = raw) (hlen : 10 < raw.length)
    (hm : titleMatch raw = none) :
    processChunk s i raw =
      some ⟨defaultTitle raw, cleanupContent raw, s, i + 1⟩ := by
  unfold processChunk
  rw [hstrip, if_pos hlen, hm]

theorem defaultTitle_eq_take50 (c : List Char) :
    defaultTitle c = (c.takeWhile (fun x => x != '\n')).take 50 := by
  unfold defaultTitle
  split
  · rfl
  · rename_i hle
    rw [List.take_of_length_le (by omega)]

theorem dropWhile_length_le {α : Type} (p : α → Bool) (l : List α) :
    (l.dropWhile p).length ≤ l.length := by
  induction l with
  | nil => simp
  | cons a as ih =>
    rw [List.dropWhile_cons]
    split
    · exact Nat.le_trans ih (by simp)
    · simp

theorem splitChunksGo_congr :
    ∀ (f1 : Nat) (l : List Char) (f2 : Nat), l.length ≤ f1 → l.length ≤ f2 →
      splitChunksGo f1 l = splitChunksGo f2 l := by
  intro f1
  induction f1 with
  | zero =>
    intro l f2 h1 _
    have hl : l = [] := List.eq_nil_of_length_eq_zero (by omega)
    subst hl
    cases f2 <;> rfl
  | succ f ih =>
    intro l f2 h1 h2
    cases l with
    | nil => cases f2 <;> rfl
    | cons c cs =>
      cases f2 with
      | zero => simp at h2
      | succ f2' =>
        simp only [List.length_cons] at h1 h2
        show splitChunksGo (f + 1) (c :: cs) = splitChunksGo (f2' + 1) (c :: cs)
        unfold splitChunksGo
        by_cases hc : (c == '\n' && cs.headD ' ' == '\n') = true
        · rw [if_pos hc, if_pos hc]
          have hd := dropWhile_length_le (fun x => x == '\n') cs
          rw [ih _ f2' (by omega) (by omega)]
        · rw [if_neg hc, if_neg hc]
          rw [ih cs f2' (by omega) (by omega)]

theorem splitChunks_cons (c : Char) (cs : List Char) :
    splitChunks (c :: cs) =
      if c == '\n' && cs.headD ' ' == '\n' then
        [] :: splitChunks (cs.dropWhile (fun x => x == '\n'))
      else (splitChunks cs).modifyHead (fun p => c :: p) := by
  show splitChunksGo (cs.length + 1) (c :: cs) = _
  unfold splitChunksGo
  by_cases hc : (c == '\n' && cs.headD ' ' == '\n') = true
  · rw [if_pos hc, if_pos hc]
    have hd := dropWhile_length_le (fun x => x == '\n') cs
    rw [splitChunksGo_congr _ _ _ (by omega) (Nat.le_refl _)]
    rfl
  · rw [if_neg hc, if_neg hc]
    rfl

theorem splitChunks_of_no_nl {t : List Char} (ht : '\n' ∉ t) :
    splitChunks t = [t] := by
  induction t with
  | nil => rfl
  | cons c cs ih =>
    rw [splitChunks_cons]
    have hcne : (c == '\n') = false := by
      simp only [beq_eq_false_iff_ne, ne_eq]
      intro h
      exact ht (by simp [h])
    rw [if_neg (by simp [hcne])]
    rw [ih (fun h => ht (List.mem_cons_of_mem c h))]
    rfl

theorem dropWhile_nl_of_no_nl {t : List Char} (ht : '\n' ∉ t) :
    t.dropWhile (fun x => x == '\n') = t := by
  cases t with
  | nil => rfl
  | cons c cs =>
    rw [List.dropWhile_cons, if_neg]
    simp only [beq_iff_eq]
    intro h
    exact ht (by simp [h])

theorem headD_ne_nl_of_no_nl {t : List Char} (ht : '\n' ∉ t) :
    (t.headD ' ' == '\n') = false := by
  cases t with
  | nil => rfl
  | cons c cs =>
    simp only [List.headD_cons, beq_eq_false_iff_ne, ne_eq]
    intro h
    exact ht (by simp [h])

theorem splitChunks_single_nl (t : List Char) (ht : '\n' ∉ t) :
    ∀ s : List Char, '\n' ∉ s → splitChunks (s ++ '\n' :: t) = [s ++ '\n' :: t] := by
  intro s
  induction s with
  | nil =>
    intro _
    rw [List.nil_append, splitChunks_cons]
    rw [if_neg (by rw [headD_ne_nl_of_no_nl ht]; simp)]
    rw [splitChunks_of_no_nl ht]
    rfl
  | cons a s' ih =>
    intro hs
    have ha : (a == '\n') = false := by
      simp only [beq_eq_false_iff_ne, ne_eq]
      intro h
      exact hs (by simp [h])
    rw [List.cons_append, splitChunks_cons]
    rw [if_neg (by simp [ha])]
    rw [ih (fun h => hs (List.mem_cons_of_mem a h))]
    rfl

theorem splitChunks_double_nl (t : List Char) (ht : '\n' ∉ t) :
    ∀ s : List Char, '\n' ∉ s → splitChunks (s ++ '\n' :: '\n' :: t) = [s, t] := by
  intro s
  induction s with
  | nil =>
    intro _
    rw [List.nil_append, splitChunks_cons]
    rw [if_pos (by simp)]
    rw [List.dropWhile_cons, if_pos (by simp)]
    rw [dropWhile_nl_of_no_nl ht, splitChunks_of_no_nl ht]
  | cons a s' ih =>
    intro hs
    have ha : (a == '\n') = false := by
      simp only [beq_eq_false_iff_ne, ne_eq]
      intro h
      exact hs (by simp [h])
    rw [List.cons_append, splitChunks_cons]
    rw [if_neg (by simp [ha])]
    rw [ih (fun h => hs (List.mem_cons_of_mem a h))]
    rfl

/-- Claim C1, counterexample: on the scenario input the parser emits two
records, not one, because the three consecutive newlines form a chunk
boundary and each side is long enough to survive the filter. -/
theorem C1_counterexample :
    (parse_highlights_and_notes "Page 1\nHello world\n\n\nThis is a test.".data
      "B".data).length = 2 := by decide

/-- Claim C1, amended: for any source label, the scenario input parses to two
records, the first titled after its single line with that line as body and
ordinal one, the second likewise with ordinal two. -/
theorem C1_amended :
    ∀ source : List Char,
      parse_highlights_and_notes "Page 1\nHello world\n\n\nThis is a test.".data source =
        [⟨"Hello world".data, "Hello world".data, source, 1⟩,
         ⟨"This is a test.".data, "This is a test.".data, source, 2⟩] := by
  intro source
  rfl

/-- Claim C3, counterexample: a single blank line, that is two consecutive
newline characters, already separates two chunks, so this input yields two
records where the claim says the two lines stay in one record. -/
theorem C3_counterexample :
    (parse_highlights_and_notes "Hello world\n\nGoodbye now.".data "B".data).length = 2 := by
  decide

/-- Claim C3, amended: the split happens at maximal runs of two or more
consecutive newline characters, that is at one or more blank lines: a single
newline between two newline-free texts is not a boundary, while two
consecutive newlines are; on concrete inputs one blank line already splits. -/
theorem C3_amended :
    (∀ s t : List Char, '\n' ∉ s → '\n' ∉ t →
        splitChunks (s ++ '\n' :: t) = [s ++ '\n' :: t]
        ∧ splitChunks (s ++ '\n' :: '\n' :: t) = [s, t])
    ∧ (parse_highlights_and_notes "Hello world\nGoodbye now.".data "B".data).length = 1
    ∧ (parse_highlights_and_notes "Hello world\n\nGoodbye now.".data "B".data).length = 2 := by
  refine ⟨?_, by decide, by decide⟩
  intro s t hs ht
  exact ⟨splitChunks_single_nl t ht s hs, splitChunks_double_nl t ht s hs⟩

/-- Claim C3, witness: the amended split rule evaluated on two concrete
newline-free fragments. -/
theorem C3_witness :
    splitChunks ("Hello world".data ++ '\n' :: "Goodbye now.".data) =
      ["Hello world".data ++ '\n' :: "Goodbye now.".data]
    ∧ splitChunks ("Hello world".data ++ '\n' :: '\n' :: "Goodbye now.".data) =
      ["Hello world".data, "Goodbye now.".data] :=
  C3_amended.1 "Hello world".data "Goodbye now.".data (by decide) (by decide)

/-- Claim C4, counterexample: on a chunk whose first line is a bare title
directive with no value, the parser does not fall back to the default
title-inference rule: the whitespace part of the title pattern crosses the
line break, the next line is captured as the title, and the body becomes
empty; the emitted title differs from the default-rule title. -/
theorem C4_counterexample :
    parse_highlights_and_notes "Title:\nContent here.".data "B".data =
      [⟨"Content here.".data, [], "B".data, 1⟩]
    ∧ ("Content here.".data : List Char) ≠
        defaultTitle "Title:\nContent here.".data := by
  exact ⟨by decide, by decide⟩

/-- Claim C4, amended: when a chunk starts with a title directive whose value
line is empty, the whitespace matching of the title pattern crosses the line
break, so the title is taken from the stripped next line and everything
through the end of that line is removed from the body; the parser still emits
a record and never fails. -/
theorem C4_amended :
    ∀ (s : List Char) (i : Nat) (c0 : Char) (v' rest : List Char),
      isPySpace c0 = false → '\n' ∉ c0 :: v' →
      pyStrip (['T', 'i', 't', 'l', 'e', ':'] ++ ('\n' :: (c0 :: v' ++ '\n' :: rest))) =
        ['T', 'i', 't', 'l', 'e', ':'] ++ ('\n' :: (c0 :: v' ++ '\n' :: rest)) →
      10 < (['T', 'i', 't', 'l', 'e', ':'] ++ ('\n' :: (c0 :: v' ++ '\n' :: rest))).length →
      processChunk s i
          (['T', 'i', 't', 'l', 'e', ':'] ++ ('\n' :: (c0 :: v' ++ '\n' :: rest))) =
        some ⟨pyStrip (c0 :: v'), cleanupContent (pyStrip rest), s, i + 1⟩ := by
  intro s i c0 v' rest hc0 hv hstrip hlen
  have hw : ∀ c ∈ (['\n'] : List Char), isPySpace c = true := by
    intro c hc
    simp only [List.mem_singleton] at hc
    subst hc
    rfl
  have hm := titleMatch_ws hw hc0 hv rest
  exact processChunk_of_titleMatch s i hstrip hlen hm (pyStrip_cons_ne_nil hc0 v')

/-- Claim C4, witness: the amended behavior on a concrete chunk whose title
directive line carries no value. -/
theorem C4_witness :
    processChunk "B".data 0 "Title:\nContent here.\nExtra line.".data =
      some ⟨"Content here.".data, "Extra line.".data, "B".data, 1⟩ := by
  have h := C4_amended "B".data 0 'C' "ontent here.".data "Extra line.".data
    (by decide) (by decide) (by decide) (by decide)
  exact h

/-- Claim C6: a surviving chunk whose first line is a title directive with a
non-empty value yields a record titled with exactly the captured value and a
body built from the remaining lines only; without a title directive the title
is the first line of the content truncated to fifty characters; and the
scenario input gives title and body with no directive line left. -/
theorem C6_title_directive :
    (∀ (s : List Char) (i : Nat) (c0 : Char) (v' rest : List Char),
        isPySpace c0 = false → '\n' ∉ c0 :: v' → pyStrip (c0 :: v') = c0 :: v' →
        pyStrip (['T', 'i', 't', 'l', 'e', ':'] ++ (' ' :: (c0 :: v' ++ '\n' :: rest))) =
          ['T', 'i', 't', 'l', 'e', ':'] ++ (' ' :: (c0 :: v' ++ '\n' :: rest)) →
        10 < (['T', 'i', 't', 'l', 'e', ':'] ++ (' ' :: (c0 :: v' ++ '\n' :: rest))).length →
        processChunk s i
            (['T', 'i', 't', 'l', 'e', ':'] ++ (' ' :: (c0 :: v' ++ '\n' :: rest))) =
          some ⟨c0 :: v', cleanupContent (pyStrip rest), s, i + 1⟩)
    ∧ (∀ (s : List Char) (i : Nat) (c : List Char),
        pyStrip c = c → 10 < c.length → titleMatch c = none →
        processChunk s i c =
          some ⟨(c.takeWhile (fun x => x != '\n')).take 50, cleanupContent c, s, i + 1⟩)
    ∧ parse_highlights_and_notes "Title: My Idea\nSome content.\n".data "B".data =
        [⟨"My Idea".data, "Some content.".data, "B".data, 1⟩] := by
  refine ⟨?_, ?_, by decide⟩
  · intro s i c0 v' rest hc0 hv hvstrip hstrip hlen
    have hw : ∀ c ∈ ([' '] : List Char), isPySpace c = true := by
      intro c hc
      simp only [List.mem_singleton] at hc
      subst hc
      rfl
    have hm := titleMatch_ws hw hc0 hv rest
    have h := processChunk_of_titleMatch s i hstrip hlen hm
      (by rw [hvstrip]; simp)
    rw [hvstrip] at h
    exact h
  · intro s i c hstrip hlen hm
    have h := processChunk_of_no_title s i hstrip hlen hm
    rw [defaultTitle_eq_take50] at h
    exact h

/-- Claim C6, witness: the scenario chunk processed through the general
statement. -/
theorem C6_witness :
    processChunk "B".data 0 "Title: My Idea\nSome content.".data =
      some ⟨"My Idea".data, "Some content.".data, "B".data, 1⟩ := by
  have h := C6_title_directive.1 "B".data 0 'M' "y Idea".data "Some content.".data
    (by decide) (by decide) (by decide) (by decide) (by decide)
  exact h

theorem digitChar_toNat {m : Nat} (h : m < 10) : (Nat.digitChar m).toNat = 48 + m := by
  interval_cases m <;> rfl

theorem decVal_append (l : List Char) (c : Char) :
    decVal (l ++ [c]) = 10 * decVal l + (c.toNat - 48) := by
  unfold decVal
  rw [List.foldl_append]
  rfl

theorem decVal_singleton (c : Char) : decVal [c] = c.toNat - 48 := by
  unfold decVal
  simp [List.foldl]

theorem decVal_natDecGo : ∀ fuel n, n < 10 ^ (fuel + 1) → decVal (natDecGo fuel n) = n := by
  intro fuel
  induction fuel with
  | zero =>
    intro n hn
    have h10 : n < 10 := by simpa using hn
    unfold natDecGo
    rw [decVal_singleton, digitChar_toNat h10]
    omega
  | succ f ih =>
    intro n hn
    unfold natDecGo
    by_cases h10 : n < 10
    · rw [if_pos h10, decVal_singleton, digitChar_toNat h10]
      omega
    · rw [if_neg h10, decVal_append]
      have hdiv : n / 10 < 10 ^ (f + 1) := by
        rw [Nat.div_lt_iff_lt_mul (by omega)]
        calc n < 10 ^ (f + 1 + 1) := hn
          _ = 10 ^ (f + 1) * 10 := by rw [pow_succ]
      rw [ih (n / 10) hdiv]
      have hmod : n % 10 < 10 := Nat.mod_lt n (by omega)
      rw [digitChar_toNat hmod]
      omega

theorem decVal_natDec (n : Nat) : decVal (natDec n) = n := by
  unfold natDec
  refine decVal_natDecGo n n ?_
  have h1 : n < 10 ^ n := Nat.lt_pow_self (by omega) n
  have h2 : 10 ^ n ≤ 10 ^ (n + 1) := Nat.pow_le_pow_right (by omega) (by omega)
  omega

theorem natDec_inj {a b : Nat} (h : natDec a = natDec b) : a = b := by
  have ha := decVal_natDec a
  rw [h, decVal_natDec] at ha
  omega

theorem noteFilename_inj (base : List Char) : Function.Injective (noteFilename base) := by
  intro k j h
  unfold noteFilename at h
  by_cases hk : k = 0 <;> by_cases hj : j = 0
  · omega
  · rw [if_pos hk, if_neg hj] at h
    have h2 := List.append_cancel_left h
    simp at h2
  · rw [if_neg hk, if_pos hj] at h
    have h2 := List.append_cancel_left h
    simp at h2
  · rw [if_neg hk, if_neg hj] at h
    have h2 := List.append_cancel_left h
    simp only [List.cons.injEq, true_and] at h2
    have h3 := List.append_cancel_right h2
    exact natDec_inj h3

theorem exists_free_name (ex : List (List Char)) (base : List Char) :
    ∃ j, j < ex.length + 1 ∧ noteFilename base j ∉ ex := by
  by_contra hcon
  push_neg at hcon
  have himg : Finset.image (noteFilename base) (Finset.range (ex.length + 1)) ⊆
      ex.toFinset := by
    intro x hx
    rw [Finset.mem_image] at hx
    obtain ⟨j, hj, hje⟩ := hx
    rw [Finset.mem_range] at hj
    rw [List.mem_toFinset]
    exact hje ▸ hcon j hj
  have hcard := Finset.card_le_card himg
  rw [Finset.card_image_of_injective _ (noteFilename_inj base), Finset.card_range] at hcard
  have hle := List.toFinset_card_le ex
  omega

theorem chooseNameGo_spec (ex : List (List Char)) (base : List Char) :
    ∀ (fuel k : Nat), (∃ j, j < fuel ∧ noteFilename base (k + j) ∉ ex) →
      ∃ j, chooseNameGo ex base fuel k = noteFilename base (k + j) ∧
        noteFilename base (k + j) ∉ ex ∧ ∀ m, m < j → noteFilename base (k + m) ∈ ex := by
  intro fuel
  induction fuel with
  | zero =>
    intro k hex
    obtain ⟨j, hj, _⟩ := hex
    omega
  | succ f ih =>
    intro k hex
    obtain ⟨j, hj, hfree⟩ := hex
    unfold chooseNameGo
    by_cases hmem : noteFilename base k ∈ ex
    · rw [if_pos hmem]
      have hj0 : j ≠ 0 := by
        intro h0
        subst h0
        exact hfree (by simpa using hmem)
      have hshift : k + 1 + (j - 1) = k + j := by omega
      obtain ⟨j', heq', hfree', hall'⟩ :=
        ih (k + 1) ⟨j - 1, by omega, by rw [hshift]; exact hfree⟩
      have hs2 : k + 1 + j' = k + (j' + 1) := by omega
      rw [hs2] at heq' hfree'
      refine ⟨j' + 1, heq', hfree', ?_⟩
      intro m hm
      cases m with
      | zero => simpa using hmem
      | succ m' =>
        have h3 := hall' m' (by omega)
        have hs3 : k + 1 + m' = k + (m' + 1) := by omega
        rw [hs3] at h3
        exact h3
    · rw [if_neg hmem]
      exact ⟨0, rfl, by simpa using hmem, by omega⟩

/-- Claim C9, counterexample: the sanitization of the persistence step keeps
hyphens, which are not word characters, so a hyphenated title is not
sanitized the way the claim words it: the written name keeps the hyphen while
the claim-worded sanitization would delete it. -/
theorem C9_counterexample :
    create_obsidian_note [] ⟨"well-known idea".data, [], [], 3⟩ =
      "well-known idea.md".data
    ∧ sanitizeTitleClaim "well-known idea".data ++ ['.', 'm', 'd'] =
      "wellknown idea.md".data
    ∧ ("well-known idea.md".data : List Char) ≠ "wellknown idea.md".data :=
  ⟨by decide, by decide, by decide⟩

/-- Claim C9, amended: persisting a record never overwrites an existing name:
the chosen name is the first unused candidate, where candidates start at the
sanitized base name (keeping word characters, whitespace and hyphens) and
continue with increasing numeric suffixes; and when the title sanitizes to
nothing the chosen name contains the decimal rendering of the ordinal. -/
theorem C9_amended :
    ∀ (existing : List (List Char)) (note : Note),
      create_obsidian_note existing note ∉ existing
      ∧ (∃ k, create_obsidian_note existing note = noteFilename (noteBase note) k
          ∧ ∀ m, m < k → noteFilename (noteBase note) m ∈ existing)
      ∧ (sanitizeTitle note.title = [] →
          List.IsInfix (natDec note.index) (create_obsidian_note existing note)) := by
  intro ex note
  obtain ⟨j, hbound, hfree⟩ := exists_free_name ex (noteBase note)
  obtain ⟨k, heq, hkfree, hall⟩ :=
    chooseNameGo_spec ex (noteBase note) (ex.length + 1) 0
      ⟨j, by omega, by simpa using hfree⟩
  simp only [Nat.zero_add] at heq hkfree hall
  have hname : create_obsidian_note ex note = noteFilename (noteBase note) k := heq
  refine ⟨by rw [hname]; exact hkfree, ⟨k, hname, hall⟩, ?_⟩
  intro hempty
  have hbase : noteBase note = ['N', 'o', 't', 'e', ' '] ++ natDec note.index := by
    unfold noteBase
    rw [hempty]
    rfl
  rw [hname, hbase]
  unfold noteFilename
  by_cases hk : k = 0
  · rw [if_pos hk]
    exact ⟨['N', 'o', 't', 'e', ' '], ['.', 'm', 'd'], by simp⟩
  · rw [if_neg hk]
    exact ⟨['N', 'o', 't', 'e', ' '], ' ' :: (natDec k ++ ['.', 'm', 'd']), by simp⟩

/-- Claim C9, witness: on a destination already holding the base name and its
first suffixed variant, the chosen name collides with neither; and an
unsanitizable title falls back to a name containing the ordinal. -/
theorem C9_witness :
    create_obsidian_note ["My Idea.md".data, "My Idea 1.md".data]
        ⟨"My: Idea?".data, [], [], 1⟩ ∉
      (["My Idea.md".data, "My Idea 1.md".data] : List (List Char))
    ∧ List.IsInfix (natDec 7) (create_obsidian_note [] ⟨"!!!".data, [], [], 7⟩) :=
  ⟨(C9_amended ["My Idea.md".data, "My Idea 1.md".data] ⟨"My: Idea?".data, [], [], 1⟩).1,
   (C9_amended [] ⟨"!!!".data, [], [], 7⟩).2.2 (by decide)⟩

theorem takeWhile_all {p : Char → Bool} {l : List Char} (h : ∀ c ∈ l, p c = true) :
    l.takeWhile p = l := by
  induction l with
  | nil => rfl
  | cons a as ih =>
    rw [List.takeWhile_cons, h a (by simp)]
    simp only [if_true]
    rw [ih (fun c hc => h c (List.mem_cons_of_mem a hc))]

theorem word_ne_nl {c : Char} (h : isWordChar c = true) : (c != '\n') = true := by
  simp only [bne_iff_ne, ne_eq]
  intro heq
  subst heq
  exact absurd h (by decide)

theorem word_not_space {c : Char} (h : isWordChar c = true) : isPySpace c = false := by
  cases hsp : isPySpace c with
  | false => rfl
  | true =>
    exfalso
    have hc : ((((c = ' ' ∨ c = '\t') ∨ c = '\n') ∨ c = '\r') ∨ c = '\x0b') ∨
        c = '\x0c' := by
      simpa [isPySpace] using hsp
    rcases hc with ((((h1 | h1) | h1) | h1) | h1) | h1 <;>
      (subst h1; exact absurd h (by decide))

theorem matchFolderTag_structured {c0 : Char} {w' : List Char}
    (hword : ∀ c ∈ c0 :: w', isWordChar c = true) (rest : List Char) :
    matchFolderTag (('#' :: c0 :: w') ++ '\n' :: rest) = some (c0 :: w', rest) := by
  have hnl : ∀ c ∈ '#' :: c0 :: w', (c != '\n') = true := by
    intro c hc
    rw [List.mem_cons] at hc
    rcases hc with hc | hc
    · subst hc
      rfl
    · exact word_ne_nl (hword c hc)
  have hline := takeWhile_all_append (p := fun c => c != '\n') (x := '\n') hnl (by simp) rest
  have hds : (c0 :: w').dropWhile isPySpace = c0 :: w' := by
    rw [List.dropWhile_cons,
      if_neg (by rw [word_not_space (hword c0 (by simp))]; simp)]
  have htw : (c0 :: w').takeWhile isWordChar = c0 :: w' := takeWhile_all hword
  unfold matchFolderTag
  rw [hline]
  rw [List.dropWhile_cons, if_neg (by decide)]
  split
  · rename_i l2 heq
    rw [List.cons.injEq] at heq
    obtain ⟨-, hl2⟩ := heq
    subst hl2
    rw [hds, htw]
    rw [if_neg (by simp)]
    rw [List.drop_length]
    rw [if_pos (by rfl)]
    rw [List.drop_left]
    rfl
  · rename_i hne
    exact absurd rfl (hne (c0 :: w'))

theorem matchFolderTag_no_hash {chunk : List Char}
    (h : ((chunk.takeWhile (fun c => c != '\n')).dropWhile isPySpace).headD ' ' ≠ '#') :
    matchFolderTag chunk = none := by
  unfold matchFolderTag
  split
  · rename_i l2 heq
    exfalso
    apply h
    rw [heq]
    rfl
  · rfl

theorem take7_folder (X : List Char) :
    ((['F', 'o', 'l', 'd', 'e', 'r', ':'] : List Char) ++ X).take 7 =
      ['F', 'o', 'l', 'd', 'e', 'r', ':'] := by
  simp

theorem drop7_folder (X : List Char) :
    ((['F', 'o', 'l', 'd', 'e', 'r', ':'] : List Char) ++ X).drop 7 = X := by
  simp

theorem matchFolderLine_structured {c0 : Char} {v' : List Char}
    (hv : '\n' ∉ c0 :: v') (hstrip : pyStrip (c0 :: v') = c0 :: v') (rest : List Char) :
    matchFolderLine
        ((['F', 'o', 'l', 'd', 'e', 'r', ':'] ++ (' ' :: c0 :: v')) ++ '\n' :: rest) =
      some (c0 :: v', rest) := by
  have hnl : ∀ c ∈ (['F', 'o', 'l', 'd', 'e', 'r', ':'] : List Char) ++ (' ' :: c0 :: v'),
      (c != '\n') = true := by
    intro c hc
    rw [List.mem_append] at hc
    rcases hc with hc | hc
    · fin_cases hc <;> rfl
    · rw [List.mem_cons] at hc
      rcases hc with hc | hc
      · subst hc
        rfl
      · simp only [bne_iff_ne, ne_eq]
        intro heq
        exact hv (heq ▸ hc)
  have hline := takeWhile_all_append (p := fun c => c != '\n') (x := '\n') hnl (by simp) rest
  unfold matchFolderLine
  rw [hline, take7_folder, drop7_folder]
  rw [if_pos (by decide)]
  rw [pyStrip_cons_space (by rfl), hstrip]
  rw [if_neg (by simp)]
  rw [List.drop_left]
  rfl

/-- Claim C2: in the folder-aware revision as modelled from the spec, a
surviving chunk that starts with a hash-tag directive line gets the folder
resolved by the case-insensitive shorthand lookup of the captured word (the
word itself when absent from the table) and the directive line never reaches
the body; the same holds for a leading Folder line; a chunk with neither
directive gets no folder; and the scenario input routes to the fiction
destination with the directive stripped. -/
theorem C2_folder_directives :
    (∀ (table : List (List Char × List Char)) (src : List Char) (i : Nat)
        (c0 : Char) (w' rest : List Char),
        (∀ c ∈ c0 :: w', isWordChar c = true) →
        pyStrip (('#' :: c0 :: w') ++ '\n' :: rest) = ('#' :: c0 :: w') ++ '\n' :: rest →
        10 < (('#' :: c0 :: w') ++ '\n' :: rest).length →
        matchFolderLine (pyStrip rest) = none →
        matchTitleLine (pyStrip rest) = none →
        processChunkSpec table src i (('#' :: c0 :: w') ++ '\n' :: rest) =
          some ⟨defaultTitle (pyStrip rest), cleanupContent (pyStrip rest),
            some (resolveFolder table (c0 :: w')), src, i + 1⟩)
    ∧ (∀ (table : List (List Char × List Char)) (src : List Char) (i : Nat)
        (c0 : Char) (v' rest : List Char),
        '\n' ∉ c0 :: v' → pyStrip (c0 :: v') = c0 :: v' →
        pyStrip ((['F', 'o', 'l', 'd', 'e', 'r', ':'] ++ (' ' :: c0 :: v')) ++ '\n' :: rest) =
          (['F', 'o', 'l', 'd', 'e', 'r', ':'] ++ (' ' :: c0 :: v')) ++ '\n' :: rest →
        10 < ((['F', 'o', 'l', 'd', 'e', 'r', ':'] ++ (' ' :: c0 :: v')) ++ '\n' :: rest).length →
        matchTitleLine (pyStrip rest) = none →
        processChunkSpec table src i
            ((['F', 'o', 'l', 'd', 'e', 'r', ':'] ++ (' ' :: c0 :: v')) ++ '\n' :: rest) =
          some ⟨defaultTitle (pyStrip rest), cleanupContent (pyStrip rest),
            some (resolveFolder table (c0 :: v')), src, i + 1⟩)
    ∧ (∀ (table : List (List Char × List Char)) (src : List Char) (i : Nat)
        (c : List Char) (r : FolderNote),
        matchFolderTag (pyStrip c) = none → matchFolderLine (pyStrip c) = none →
        processChunkSpec table src i c = some r → r.folder = none)
    ∧ resolveFolder [("fiction".data, "2 - Fiction".data)] "FICTION".data =
        "2 - Fiction".data
    ∧ resolveFolder [("fiction".data, "2 - Fiction".data)] "poetry".data = "poetry".data
    ∧ parseWithFolders [("fiction".data, "2 - Fiction".data)]
        "#fiction\nA tale\nof two lines\n\n\nAnother note here.".data "B".data =
        [⟨"A tale".data, "A tale of two lines".data, some "2 - Fiction".data, "B".data, 1⟩,
         ⟨"Another note here.".data, "Another note here.".data, none, "B".data, 2⟩] := by
  refine ⟨?_, ?_, ?_, by decide, by decide, by decide⟩
  · intro table src i c0 w' rest hword hstrip hlen hnofl hnotl
    have htag := matchFolderTag_structured hword rest
    have hfold : folderOf table (('#' :: c0 :: w') ++ '\n' :: rest) =
        (some (resolveFolder table (c0 :: w')), pyStrip rest) := by
      simp only [folderOf, htag, hnofl]
    have htitle : titleOf (pyStrip rest) = (none, pyStrip rest) := by
      unfold titleOf
      rw [hnotl]
    unfold processChunkSpec
    rw [hstrip, if_pos hlen, hfold]
    dsimp only
    rw [htitle]
  · intro table src i c0 v' rest hv hvstrip hstrip hlen hnotl
    have hnl : ∀ c ∈ (['F', 'o', 'l', 'd', 'e', 'r', ':'] : List Char) ++ (' ' :: c0 :: v'),
        (c != '\n') = true := by
      intro c hc
      rw [List.mem_append] at hc
      rcases hc with hc | hc
      · fin_cases hc <;> rfl
      · rw [List.mem_cons] at hc
        rcases hc with hc | hc
        · subst hc
          rfl
        · simp only [bne_iff_ne, ne_eq]
          intro heq
          exact hv (heq ▸ hc)
    have hline :=
      takeWhile_all_append (p := fun c => c != '\n') (x := '\n') hnl (by simp) rest
    have hnotag : matchFolderTag
        ((['F', 'o', 'l', 'd', 'e', 'r', ':'] ++ (' ' :: c0 :: v')) ++ '\n' :: rest) = none := by
      apply matchFolderTag_no_hash
      rw [hline]
      show ((('F' :: (['o', 'l', 'd', 'e', 'r', ':'] ++
        (' ' :: c0 :: v'))).dropWhile isPySpace).headD ' ') ≠ '#'
      rw [List.dropWhile_cons, if_neg (by decide)]
      simp only [List.headD_cons]
      decide
    have hfl := matchFolderLine_structured hv hvstrip rest
    have hfold : folderOf table
        ((['F', 'o', 'l', 'd', 'e', 'r', ':'] ++ (' ' :: c0 :: v')) ++ '\n' :: rest) =
        (some (resolveFolder table (c0 :: v')), pyStrip rest) := by
      simp only [folderOf, hnotag, hfl]
    have htitle : titleOf (pyStrip rest) = (none, pyStrip rest) := by
      unfold titleOf
      rw [hnotl]
    unfold processChunkSpec
    rw [hstrip, if_pos hlen, hfold]
    dsimp only
    rw [htitle]
  · intro table src i c r htag hfl hsome
    have hfold : folderOf table (pyStrip c) = (none, pyStrip c) := by
      simp only [folderOf, htag, hfl]
    unfold processChunkSpec at hsome
    split at hsome
    · rw [hfold] at hsome
      simp only [Option.some.injEq] at hsome
      subst hsome
      rfl
    · exact absurd hsome (by simp)

/-- Claim C2, witness: the scenario chunk processed through the tag case, and
a Folder line chunk through the line case. -/
theorem C2_witness :
    processChunkSpec [("fiction".data, "2 - Fiction".data)] "B".data 0
        "#fiction\nA tale\nof two lines".data =
      some ⟨"A tale".data, "A tale of two lines".data, some "2 - Fiction".data,
        "B".data, 1⟩
    ∧ processChunkSpec [("fiction".data, "2 - Fiction".data)] "B".data 0
        "Folder: Essays\nA solid thought here.".data =
      some ⟨"A solid thought here.".data, "A solid thought here.".data,
        some "Essays".data, "B".data, 1⟩ := by
  constructor
  · have h := C2_folder_directives.1 [("fiction".data, "2 - Fiction".data)] "B".data 0
      'f' "iction".data "A tale\nof two lines".data (by decide) (by decide) (by decide)
      (by decide) (by decide)
    exact h
  · have h := C2_folder_directives.2.1 [("fiction".data, "2 - Fiction".data)] "B".data 0
      'E' "ssays".data "A solid thought here.".data (by decide) (by decide) (by decide)
      (by decide) (by decide)
    exact h

end KindleScribe
